import Mathlib

/- Verification of the bitfieldencoder library against its specification.

   The definitions below are a shallow embedding of src/index.ts
   (class BitfieldEncoder).  JavaScript bitwise operators coerce their
   operands to 32-bit two's-complement integers and take shift counts
   modulo 32; the js-helpers model ToInt32 / ToUint32 and the operators
   "<<", ">>", "&", "|" exactly.  JS numbers holding integral values are
   modelled as Int; field-value objects are modelled as partial maps
   from keys to values; throwing is modelled with Except. -/

deriving instance DecidableEq for Except

namespace Bitfield

/-- The two runtime type tags the constructor accepts for a schema entry:
    the Boolean constructor and the Number constructor. -/
inductive FType where
  | bool
  | num
deriving DecidableEq

/-- A value stored in a data object: a JS boolean or a JS (integral) number. -/
inductive JSValue where
  | bool (b : Bool)
  | num (n : Int)
deriving DecidableEq

/-- One schema entry: a type tag plus the optional numBits property. -/
structure SchemaItem where
  type : FType
  numBits : Option Int
deriving DecidableEq

/-- The encoding schema as an ordered association list, matching the
    insertion order of Object.entries on the schema object. -/
abbrev Schema := List (String × SchemaItem)

/-- ToUint32: the unsigned 32-bit pattern of an integer. -/
def toUint32 (n : Int) : Nat := (n % 4294967296).toNat

/-- Reinterpret an unsigned 32-bit pattern as a signed 32-bit integer. -/
def int32OfPat (u : Nat) : Int :=
  if u < 2147483648 then (u : Int) else (u : Int) - 4294967296

/-- ToInt32: coerce an integer to a signed 32-bit integer. -/
def toInt32 (n : Int) : Int := int32OfPat (toUint32 n)

/-- JS shift counts: ToUint32 of the count, masked to its low five bits. -/
def shamt (n : Int) : Nat := (n % 32).toNat

/-- The JS left shift a << b. -/
def jsShl (a b : Int) : Int :=
  int32OfPat ((toUint32 a * 2 ^ shamt b) % 4294967296)

/-- The JS sign-propagating right shift a >> b. -/
def jsShr (a b : Int) : Int := (toInt32 a).fdiv (2 ^ shamt b)

/-- The JS bitwise and a & b. -/
def jsAnd (a b : Int) : Int := int32OfPat (toUint32 a &&& toUint32 b)

/-- The JS bitwise or a | b. -/
def jsOr (a b : Int) : Int := int32OfPat (toUint32 a ||| toUint32 b)

/-- The numBits value after the destructuring default used by encode,
    decode and getIndex: an absent numBits defaults to 1 for Boolean
    fields and to 0 for Number fields; a present numBits (even 0) is
    kept as written. -/
def effBits (it : SchemaItem) : Int :=
  match it.numBits with
  | some n => n
  | none =>
    match it.type with
    | .bool => 1
    | .num => 0

/-- Errors thrown by the constructor (index.ts lines 46-71).  The kind
    check on line 48 cannot fail in this embedding because FType covers
    exactly the two accepted constructors, and the integrality check on
    line 58 holds by the Int type of numBits. -/
inductive SchemaErr where
  | missingBits (k : String)
  | bitsOutOfRange (k : String)
  | unexpectedBits (k : String)
  | totalWidthExceeded
deriving DecidableEq

/-- Per-field validation of the constructor loop body. -/
def validateField (k : String) (it : SchemaItem) : Except SchemaErr Unit :=
  match it.type, it.numBits with
  | .num, none => .error (.missingBits k)
  | .num, some n => if n ≤ 0 ∨ n > 51 then .error (.bitsOutOfRange k) else .ok ()
  | .bool, some n => if n ≠ 0 then .error (.unexpectedBits k) else .ok ()
  | .bool, none => .ok ()

/-- The width the constructor adds to the running total: numBits || 1,
    so an absent or zero numBits contributes 1. -/
def truthyBits : Option Int → Int
  | none => 1
  | some n => if n = 0 then 1 else n

/-- The constructor loop with its running total, followed by the final
    52-bit total-width check. -/
def validateSchema : Schema → Int → Except SchemaErr Int
  | [], total => if total > 52 then .error .totalWidthExceeded else .ok total
  | (k, it) :: rest, total =>
    match validateField k it with
    | .error e => .error e
    | .ok _ => validateSchema rest (total + truthyBits it.numBits)

/-- new BitfieldEncoder(schema): ok (with the summed width) exactly when
    construction succeeds. -/
def construct (l : Schema) : Except SchemaErr Int := validateSchema l 0

/-- Errors thrown by encode (and hence by manipulate). -/
inductive EncodeErr where
  | missingKey (k : String)
  | typeMismatch (k : String)
  | valueOutOfRange (k : String)
deriving DecidableEq

/-- The encode loop (index.ts lines 84-122): per field, require the key,
    check the runtime type, range-check Number values against 1 << numBits,
    then or the value shifted by the running offset into the accumulator. -/
def encodeFields : Schema → (String → Option JSValue) → Int → Int → Except EncodeErr Int
  | [], _, result, _ => .ok result
  | (key, it) :: rest, data, result, offset =>
    match data key with
    | none => .error (.missingKey key)
    | some (.bool b) =>
      match it.type with
      | .bool =>
        encodeFields rest data
          (jsOr result (jsShl (if b then 1 else 0) offset)) (offset + effBits it)
      | .num => .error (.typeMismatch key)
    | some (.num n) =>
      match it.type with
      | .num =>
        if n ≥ jsShl 1 (effBits it) ∨ n < 0 then .error (.valueOutOfRange key)
        else encodeFields rest data (jsOr result (jsShl n offset)) (offset + effBits it)
      | .bool => .error (.typeMismatch key)

/-- encode(data). -/
def encode (l : Schema) (data : String → Option JSValue) : Except EncodeErr Int :=
  encodeFields l data 0 0

/-- The decode loop (index.ts lines 134-142): per field, extract
    (packed >> offset) & ((1 << numBits) - 1) and convert nonzero to true
    for Boolean fields. -/
def decodeFields : Schema → Int → Int → List (String × JSValue)
  | [], _, _ => []
  | (key, it) :: rest, packed, offset =>
    (key,
      match it.type with
      | .bool =>
        JSValue.bool (decide (jsAnd (jsShr packed offset) (jsShl 1 (effBits it) - 1) ≠ 0))
      | .num => JSValue.num (jsAnd (jsShr packed offset) (jsShl 1 (effBits it) - 1))) ::
    decodeFields rest packed (offset + effBits it)

/-- decode(packedData).  The only throw in the source is the typeof guard
    on line 129, which every numeric input passes, so the model is total. -/
def decode (l : Schema) (packed : Int) : List (String × JSValue) :=
  decodeFields l packed 0

/-- First-match lookup of a key in a decoded object. -/
def lookupKey : List (String × JSValue) → String → Option JSValue
  | [], _ => none
  | (k, v) :: rest, key => if key = k then some v else lookupKey rest key

/-- manipulate(packedData, data) (index.ts lines 149-156): decode, spread
    the updates over the decoded object (updates win), re-encode. -/
def manipulate (l : Schema) (packed : Int) (updates : String → Option JSValue) :
    Except EncodeErr Int :=
  encodeFields l
    (fun k =>
      match updates k with
      | some v => some v
      | none => lookupKey (decode l packed) k)
    0 0

/-- The record returned by getIndex. -/
structure IndexInfo where
  start : Int
  endPos : Int
  numBits : Int
  mask : Int
  shift : Int
  max : Int
  min : Int
  type : FType
deriving DecidableEq

/-- First-match lookup of a key in the schema. -/
def lookupItem : Schema → String → Option SchemaItem
  | [], _ => none
  | (k, it) :: rest, key => if key = k then some it else lookupItem rest key

/-- Sum of the effective widths of a schema segment; the getIndex loop
    accumulates exactly this over the fields before the requested key. -/
def sumEff : Schema → Int
  | [] => 0
  | x :: rest => effBits x.2 + sumEff rest

/-- getIndex(key) (index.ts lines 161-191): error for a key outside the
    schema, else the layout record with start the summed width of the
    strictly earlier fields. -/
def getIndex (l : Schema) (key : String) : Except String IndexInfo :=
  match lookupItem l key with
  | none => .error key
  | some it =>
    .ok ⟨sumEff (l.takeWhile (fun p => decide (p.1 ≠ key))),
      sumEff (l.takeWhile (fun p => decide (p.1 ≠ key))) + effBits it,
      effBits it,
      jsShl 1 (effBits it) - 1,
      52 - effBits it,
      jsShl 1 (effBits it) - 1,
      0,
      it.type⟩

/-- Sum of the truthy widths, the total the constructor compares with 52. -/
def sumTruthy : Schema → Int
  | [] => 0
  | x :: rest => truthyBits x.2.numBits + sumTruthy rest

/-- Range statement for one decoded entry: Boolean fields decode to a
    boolean, Number fields of width b decode to an integer in
    [0, 2 ^ b - 1]. -/
def valueInRange (it : SchemaItem) (v : JSValue) : Prop :=
  match it.type with
  | .bool => ∃ b, v = JSValue.bool b
  | .num => ∃ n, v = JSValue.num n ∧ 0 ≤ n ∧ n ≤ 2 ^ (effBits it).toNat - 1

/-- Bitwise containment of 32-bit patterns: every set bit of x is set in y. -/
def subPat (x y : Nat) : Prop := ∀ i, x.testBit i = true → y.testBit i = true

/-- The schema of the concrete scenario in the spec:
    a Flag, a 4-bit unsigned and a 5-bit unsigned field. -/
def exSchema : Schema := [("a", ⟨.bool, none⟩), ("b", ⟨.num, some 4⟩), ("c", ⟨.num, some 5⟩)]

/-- The data object of the concrete scenario. -/
def exData : String → Option JSValue := fun k =>
  if k = "a" then some (.bool true)
  else if k = "b" then some (.num 15)
  else if k = "c" then some (.num 31)
  else none

/-- The updates object of the concrete scenario. -/
def exUpdates : String → Option JSValue := fun k =>
  if k = "b" then some (.num 0)
  else if k = "c" then some (.num 5)
  else none

/-- A 40-bit schema, accepted by the constructor, on which the 32-bit
    coercion of the JS operators loses bits. -/
def wideSchema : Schema := [("x", ⟨.num, some 20⟩), ("y", ⟨.num, some 20⟩)]

/-- In-range values for wideSchema whose encoding wraps to 0. -/
def wideData : String → Option JSValue := fun k =>
  if k = "x" then some (.num 0)
  else if k = "y" then some (.num 524288)
  else none

/-- All-zero values for wideSchema. -/
def zeroData : String → Option JSValue := fun k =>
  if k = "x" then some (.num 0)
  else if k = "y" then some (.num 0)
  else none

/-- An update touching only the key y of wideSchema, with an in-range value. -/
def yUpdate : String → Option JSValue := fun k =>
  if k = "y" then some (.num 524288) else none

/-- A schema with a single 31-bit unsigned field. -/
def schema31 : Schema := [("x", ⟨.num, some 31⟩)]

/-- The value 0 for the field x. -/
def xZero : String → Option JSValue := fun k =>
  if k = "x" then some (.num 0) else none

/-- A 32-bit schema whose top bit lands on the sign bit of an int32. -/
def schema32 : Schema := [("x", ⟨.num, some 30⟩), ("y", ⟨.num, some 2⟩)]

/-- Values for schema32 that set the sign bit. -/
def data32 : String → Option JSValue := fun k =>
  if k = "x" then some (.num 0)
  else if k = "y" then some (.num 2)
  else none

/-- A schema with a single Flag field. -/
def flagSchema : Schema := [("a", ⟨.bool, none⟩)]

/-- A schema with one field whose declared width 53 fails the per-field
    width check. -/
def badWidthSchema : Schema := [("x", ⟨.num, some 53⟩)]

/-- A valid schema whose widths sum to exactly 52. -/
def fullSchema : Schema := [("a", ⟨.bool, none⟩), ("x", ⟨.num, some 51⟩)]

/-- C4: for the schema (a Flag, b UnsignedInt 4, c UnsignedInt 5), encode of
    (a true, b 15, c 31) is 1023; decode of 1023 recovers those values;
    patch of 1023 with (b 0, c 5) is 161; decode of 161 recovers the patched
    values; and fieldInfo of b reports offset 1, bits 4, mask 15, max 15,
    min 0 and the UnsignedInt kind. -/
theorem C4_concrete_scenario :
    encode exSchema exData = .ok 1023 ∧
    decode exSchema 1023 = [("a", .bool true), ("b", .num 15), ("c", .num 31)] ∧
    manipulate exSchema 1023 exUpdates = .ok 161 ∧
    decode exSchema 161 = [("a", .bool true), ("b", .num 0), ("c", .num 5)] ∧
    ∃ info, getIndex exSchema "b" = .ok info ∧ info.start = 1 ∧ info.numBits = 4 ∧
      info.mask = 15 ∧ info.max = 15 ∧ info.min = 0 ∧ info.type = .num :=
  ⟨by decide, by decide, by decide, by decide,
    ⟨⟨1, 5, 4, 15, 48, 15, 0, .num⟩, by decide, rfl, rfl, rfl, rfl, rfl, rfl⟩⟩

/-- C1 fails on the code: wideSchema (two 20-bit fields, 40 bits total) is
    accepted at construction, the value 524288 for y is inside [0, 2^20 - 1],
    yet encode wraps y's shifted bits modulo 2^32 and returns 0, so decode of
    the encoding returns 0 for y instead of 524288.  The constructor allows
    totals up to 52 bits while the JS bitwise operators in encode and decode
    work on 32-bit integers. -/
theorem C1_code_bug :
    construct wideSchema = .ok 40 ∧
    encode wideSchema wideData = .ok 0 ∧
    wideData "y" = some (.num 524288) ∧
    lookupKey (decode wideSchema 0) "y" = some (.num 0) :=
  ⟨by decide, by decide, by decide, by decide⟩

/-- C2 fails on the code: with wideSchema, the packed value 0 is produced by
    encode from all-zero values, the update map touches only y (a strict
    subset of the keys) with the in-range value 524288, yet patch returns 0
    and decode of the patched value still maps y to 0 rather than to the
    update's value, because the update's shifted bits wrap modulo 2^32. -/
theorem C2_code_bug :
    encode wideSchema zeroData = .ok 0 ∧
    yUpdate "y" = some (.num 524288) ∧
    manipulate wideSchema 0 yUpdate = .ok 0 ∧
    lookupKey (decode wideSchema 0) "y" = some (.num 0) :=
  ⟨by decide, by decide, by decide, by decide⟩

/-- C3 fails on the code: schema31 (one 31-bit unsigned field) is accepted at
    construction, but encode rejects even the value 0 with ValueOutOfRange,
    because 1 << 31 is the negative int32 -2147483648 and the range test
    n >= 1 << 31 therefore holds for every non-negative value. -/
theorem C3_code_bug :
    construct schema31 = .ok 31 ∧
    encode schema31 xZero = .error (.valueOutOfRange "x") :=
  ⟨by decide, by decide⟩

/-- C7 fails on the code: schema32 (30-bit plus 2-bit fields, 32 bits total)
    is accepted at construction and encode succeeds on the in-range values
    (x 0, y 2), but the returned packed value is the negative int32
    -2147483648 because y's top bit lands on the sign bit. -/
theorem C7_code_bug :
    construct schema32 = .ok 32 ∧
    encode schema32 data32 = .ok (-2147483648) ∧
    (-2147483648 : Int) < 0 :=
  ⟨by decide, by decide, by decide⟩

/-- C5 as stated is false: this one-field schema has summed width 53 > 52,
    but construction fails with the per-field width error, not with
    TotalWidthExceeded, because the per-field check numBits <= 51 fires
    inside the loop before the total is compared with 52. -/
theorem C5_counterexample :
    sumTruthy badWidthSchema = 53 ∧
    construct badWidthSchema = .error (.bitsOutOfRange "x") ∧
    construct badWidthSchema ≠ .error .totalWidthExceeded :=
  ⟨by decide, by decide, by decide⟩

/-- When every field passes per-field validation, the constructor reduces to
    the final comparison of the summed truthy widths with 52. -/
theorem validateSchema_run (l : Schema)
    (hpf : ∀ x ∈ l, validateField x.1 x.2 = Except.ok ()) (total : Int) :
    validateSchema l total =
      if total + sumTruthy l > 52 then Except.error SchemaErr.totalWidthExceeded
      else Except.ok (total + sumTruthy l) := by
  induction l generalizing total with
  | nil => simp [validateSchema, sumTruthy]
  | cons x rest ih =>
    obtain ⟨k, it⟩ := x
    have hx := hpf (k, it) (by simp)
    have hrest : ∀ y ∈ rest, validateField y.1 y.2 = Except.ok () := fun y hy =>
      hpf y (by simp [hy])
    simp only [validateSchema, hx]
    rw [ih hrest]
    have heq : total + truthyBits it.numBits + sumTruthy rest =
        total + sumTruthy ((k, it) :: rest) := by
      simp [sumTruthy]; ring
    rw [heq]

/-- C5 amended: for every schema whose fields each pass per-field validation,
    construction fails with TotalWidthExceeded whenever the summed widths
    exceed 52, and succeeds whenever the summed widths equal exactly 52.
    (The unamended claim is refuted by C5_counterexample: a schema whose
    single field declares 53 bits fails the per-field width check first.) -/
theorem C5_amended (l : Schema)
    (hpf : ∀ x ∈ l, validateField x.1 x.2 = Except.ok ()) :
    (sumTruthy l > 52 → construct l = .error .totalWidthExceeded) ∧
    (sumTruthy l = 52 → construct l = .ok 52) := by
  unfold construct
  rw [validateSchema_run l hpf 0]
  constructor
  · intro h
    rw [if_pos (by omega)]
  · intro h
    rw [if_neg (by omega), zero_add, h]

/-- Witness for C5_amended at a concrete schema of total width exactly 52. -/
theorem C5_amended_witness :
    sumTruthy fullSchema = 52 ∧ construct fullSchema = .ok 52 :=
  ⟨by decide, (C5_amended fullSchema (by decide)).2 (by decide)⟩

/-- With distinct keys, the schema lookup at the i-th declared key returns
    the i-th item. -/
theorem lookupItem_get (l : Schema) (hnd : (l.map Prod.fst).Nodup)
    (i : Nat) (hi : i < l.length) :
    lookupItem l (l.get ⟨i, hi⟩).1 = some (l.get ⟨i, hi⟩).2 := by
  induction l generalizing i with
  | nil => simp at hi
  | cons x rest ih =>
    match i with
    | 0 => simp [lookupItem]
    | i + 1 =>
      have hi' : i < rest.length := by simpa using hi
      have hnd' : x.1 ∉ rest.map Prod.fst ∧ (rest.map Prod.fst).Nodup := by
        simpa using hnd
      have hmem : (rest.get ⟨i, hi'⟩).1 ∈ rest.map Prod.fst :=
        List.mem_map_of_mem _ (rest.get_mem i hi')
      have hne : (rest.get ⟨i, hi'⟩).1 ≠ x.1 := by
        intro h
        exact hnd'.1 (h ▸ hmem)
      show lookupItem (x :: rest) (rest.get ⟨i, hi'⟩).1 = _
      obtain ⟨k, it⟩ := x
      simp only [lookupItem, if_neg hne]
      exact ih hnd'.2 i hi'

/-- With distinct keys, the getIndex loop that stops at the i-th declared key
    collects exactly the first i fields. -/
theorem takeWhile_ne_take (l : Schema) (hnd : (l.map Prod.fst).Nodup)
    (i : Nat) (hi : i < l.length) :
    l.takeWhile (fun p => decide (p.1 ≠ (l.get ⟨i, hi⟩).1)) = l.take i := by
  induction l generalizing i with
  | nil => simp
  | cons x rest ih =>
    match i with
    | 0 => simp [List.takeWhile_cons]
    | i + 1 =>
      have hi' : i < rest.length := by simpa using hi
      have hnd' : x.1 ∉ rest.map Prod.fst ∧ (rest.map Prod.fst).Nodup := by
        simpa using hnd
      have hmem : (rest.get ⟨i, hi'⟩).1 ∈ rest.map Prod.fst :=
        List.mem_map_of_mem _ (rest.get_mem i hi')
      have hne : x.1 ≠ (rest.get ⟨i, hi'⟩).1 := by
        intro h
        exact hnd'.1 (h ▸ hmem)
      show (x :: rest).takeWhile _ = x :: rest.take i
      rw [List.takeWhile_cons]
      simp only [List.get_cons_succ]
      rw [if_pos (by simpa using hne)]
      rw [ih hnd'.2 i hi']

/-- The summed width of the first i + 1 fields adds the i-th field's width
    to the summed width of the first i fields. -/
theorem sumEff_take_succ (l : Schema) (i : Nat) (hi : i < l.length) :
    sumEff (l.take (i + 1)) = sumEff (l.take i) + effBits (l.get ⟨i, hi⟩).2 := by
  induction l generalizing i with
  | nil => simp at hi
  | cons x rest ih =>
    match i with
    | 0 => simp [sumEff]
    | i + 1 =>
      have hi' : i < rest.length := by simpa using hi
      simp only [List.take_succ_cons, sumEff, List.get_cons_succ]
      rw [ih i hi']
      ring

/-- getIndex at the i-th declared key of a schema with distinct keys. -/
theorem getIndex_at (l : Schema) (hnd : (l.map Prod.fst).Nodup)
    (i : Nat) (hi : i < l.length) :
    getIndex l (l.get ⟨i, hi⟩).1 =
      .ok ⟨sumEff (l.take i),
        sumEff (l.take i) + effBits (l.get ⟨i, hi⟩).2,
        effBits (l.get ⟨i, hi⟩).2,
        jsShl 1 (effBits (l.get ⟨i, hi⟩).2) - 1,
        52 - effBits (l.get ⟨i, hi⟩).2,
        jsShl 1 (effBits (l.get ⟨i, hi⟩).2) - 1,
        0,
        (l.get ⟨i, hi⟩).2.type⟩ := by
  unfold getIndex
  rw [lookupItem_get l hnd i hi, takeWhile_ne_take l hnd i hi]

/-- C6: for every compiled schema with distinct keys and every declared
    field, fieldInfo succeeds; the first field's reported offset is 0; and
    whenever a next field exists, the field's reported offset plus its
    reported bit count equals the next field's reported offset.  The
    statement is instantiable for every schema the claim covers, including
    single-field ones. -/
theorem C6_offset_monotonicity (l : Schema) (t : Int) (hv : construct l = .ok t)
    (hnd : (l.map Prod.fst).Nodup) (i : Nat) (hi : i < l.length) :
    ∃ a, getIndex l (l.get ⟨i, hi⟩).1 = .ok a ∧ (i = 0 → a.start = 0) ∧
      ∀ hi2 : i + 1 < l.length, ∃ b, getIndex l (l.get ⟨i + 1, hi2⟩).1 = .ok b ∧
        a.start + a.numBits = b.start := by
  refine ⟨_, getIndex_at l hnd i hi, ?_, ?_⟩
  · intro h
    subst h
    simp [sumEff]
  · intro hi2
    refine ⟨_, getIndex_at l hnd (i + 1) hi2, ?_⟩
    exact (sumEff_take_succ l i hi).symm

/-- Witness for C6_offset_monotonicity at the concrete scenario schema. -/
theorem C6_witness :
    ∃ a, getIndex exSchema (exSchema.get ⟨0, by decide⟩).1 = .ok a ∧
      (0 = 0 → a.start = 0) ∧
      ∀ hi2 : 0 + 1 < exSchema.length,
        ∃ b, getIndex exSchema (exSchema.get ⟨0 + 1, hi2⟩).1 = .ok b ∧
          a.start + a.numBits = b.start :=
  C6_offset_monotonicity exSchema 10 (by decide) (by decide) 0 (by decide)

/-- decodeFields returns one entry per schema field, in declared order,
    whatever the packed input and running offset. -/
theorem decodeFields_keys (l : Schema) (p o : Int) :
    (decodeFields l p o).map Prod.fst = l.map Prod.fst := by
  induction l generalizing o with
  | nil => rfl
  | cons x rest ih =>
    obtain ⟨k, it⟩ := x
    simp [decodeFields, ih]

/-- C8: decode is total on numeric inputs (it is a function, never an
    Except), and for every integer input it returns a mapping with exactly
    one entry per schema field, in declared order. -/
theorem C8_decode_total_keys (l : Schema) (p : Int) :
    (decode l p).map Prod.fst = l.map Prod.fst :=
  decodeFields_keys l p 0

/-- C9 as stated is false: 2 is in decode's input domain for flagSchema
    (decode is total on numbers and maps 2 to (a false)), but patch of 2
    with empty updates re-encodes the decoded object and returns 0, not 2:
    bits outside the schema's layout are not preserved. -/
theorem C9_counterexample :
    decode flagSchema 2 = [("a", .bool false)] ∧
    manipulate flagSchema 2 (fun _ => none) = .ok 0 ∧
    manipulate flagSchema 2 (fun _ => none) ≠ .ok 2 :=
  ⟨by decide, by decide, by decide⟩

/-- ToUint32 is the identity on [0, 2^32). -/
theorem toUint32_small {n : Int} (h0 : 0 ≤ n) (h1 : n < 4294967296) :
    toUint32 n = n.toNat := by
  unfold toUint32
  rw [Int.emod_eq_of_lt h0 h1]

/-- Patterns below 2^31 are non-negative int32 values. -/
theorem int32OfPat_small {u : Nat} (h : u < 2147483648) : int32OfPat u = u := by
  unfold int32OfPat
  rw [if_pos h]

/-- Shift counts in [0, 32) are used as they are. -/
theorem shamt_small {s : Int} (h0 : 0 ≤ s) (h1 : s < 32) : shamt s = s.toNat := by
  unfold shamt
  rw [Int.emod_eq_of_lt h0 h1]

/-- Oring a value below 2^k with a multiple of 2^k is addition. -/
theorem lor_two_pow_mul_add {k : Nat} (x y : Nat) (hx : x < 2 ^ k) :
    x ||| y * 2 ^ k = x + y * 2 ^ k := by
  apply Nat.eq_of_testBit_eq
  intro i
  rw [Nat.testBit_or]
  rcases Nat.lt_or_ge i k with h | h
  · have h1 : (y * 2 ^ k).testBit i = false := by
      rw [← Nat.shiftLeft_eq, Nat.testBit_shiftLeft]
      simp [Nat.not_le.mpr h]
    have h2 : (x + y * 2 ^ k).testBit i = x.testBit i := by
      rw [Nat.testBit_to_div_mod, Nat.testBit_to_div_mod]
      have hk : y * 2 ^ k = y * 2 ^ (k - i) * 2 ^ i := by
        rw [mul_assoc, ← pow_add]
        congr 2
        omega
      rw [hk, Nat.add_mul_div_right _ _ (Nat.two_pow_pos i)]
      have hk2 : y * 2 ^ (k - i) = y * 2 ^ (k - i - 1) * 2 := by
        rw [mul_assoc, ← pow_succ]
        congr 2
        omega
      rw [hk2, Nat.add_mul_mod_self_right]
    rw [h1, h2, Bool.or_false]
  · have h1 : x.testBit i = false :=
      Nat.testBit_lt_two_pow (lt_of_lt_of_le hx (Nat.pow_le_pow_right (by norm_num) h))
    have h2 : (x + y * 2 ^ k).testBit i = (y * 2 ^ k).testBit i := by
      rw [Nat.testBit_to_div_mod, Nat.testBit_to_div_mod]
      have hk : (2 : Nat) ^ i = 2 ^ k * 2 ^ (i - k) := by
        rw [← pow_add]
        congr 1
        omega
      rw [hk, ← Nat.div_div_eq_div_mul, ← Nat.div_div_eq_div_mul]
      have hx0 : (x + y * 2 ^ k) / 2 ^ k = y * 2 ^ k / 2 ^ k := by
        rw [Nat.add_mul_div_right _ _ (Nat.two_pow_pos k), Nat.div_eq_of_lt hx,
          Nat.mul_div_cancel _ (Nat.two_pow_pos k)]
        omega
      rw [hx0]
    rw [h1, h2, Bool.false_or]

/-- 1 << s evaluates to the exact power 2^e whenever the effective shift
    count is e ≤ 30. -/
theorem jsShl_one {e : Nat} (he : e ≤ 30) {s : Int} (hsh : shamt s = e) :
    jsShl 1 s = 2 ^ e := by
  unfold jsShl
  rw [hsh]
  have h1 : toUint32 1 = 1 := by decide
  rw [h1, one_mul]
  have hble : (2 : Nat) ^ e ≤ 2 ^ 30 := Nat.pow_le_pow_right (by norm_num) he
  have h30 : (2 : Nat) ^ 30 = 1073741824 := by norm_num
  rw [Nat.mod_eq_of_lt (by omega), int32OfPat_small (by omega)]
  push_cast
  ring

/-- The 32-bit pattern of the mask (1 << b) - 1 for a declared width
    1 ≤ b ≤ 51 is bounded by 2^b - 1 and fits below 2^31. -/
theorem mask_pattern_bound (b : Int) (h1 : 1 ≤ b) (h2 : b ≤ 51) :
    ((toUint32 (jsShl 1 b - 1) : Nat) : Int) ≤ 2 ^ b.toNat - 1 ∧
    toUint32 (jsShl 1 b - 1) < 2147483648 := by
  have hcb : ((2 ^ b.toNat : Nat) : Int) = (2 : Int) ^ b.toNat := by push_cast; ring
  have h1n : (1 : Nat) ≤ 2 ^ b.toNat := Nat.one_le_two_pow
  rcases le_or_lt b 30 with hb30 | hb31
  · -- 1 ≤ b ≤ 30: the mask is exactly 2^b - 1
    have hsh : shamt b = b.toNat := shamt_small (by omega) (by omega)
    have hshl : jsShl 1 b = 2 ^ b.toNat := jsShl_one (by omega) hsh
    have hble : (2 : Nat) ^ b.toNat ≤ 2 ^ 30 := Nat.pow_le_pow_right (by norm_num) (by omega)
    have h30 : (2 : Nat) ^ 30 = 1073741824 := by norm_num
    rw [hshl, toUint32_small (by omega) (by omega)]
    omega
  · rcases le_or_lt b 31 with hb | hbge
    · -- b = 31: 1 << 31 is the negative int32 -2^31
      have hb31' : b = 31 := by omega
      subst hb31'
      constructor
      · have : toUint32 (jsShl 1 31 - 1) = 2147483647 := by decide
        rw [this]
        have : ((31 : Int)).toNat = 31 := by decide
        rw [this]
        norm_num
      · decide
    · -- 32 ≤ b ≤ 51: the shift count wraps to b - 32
      have hsh : shamt b = (b - 32).toNat := by
        unfold shamt
        congr 1
        omega
      have hshl : jsShl 1 b = 2 ^ (b - 32).toNat := jsShl_one (by omega) hsh
      have h1e : (1 : Nat) ≤ 2 ^ (b - 32).toNat := Nat.one_le_two_pow
      have hce : ((2 ^ (b - 32).toNat : Nat) : Int) = (2 : Int) ^ (b - 32).toNat := by
        push_cast
        ring
      have hble : (2 : Nat) ^ (b - 32).toNat ≤ 2 ^ 19 := Nat.pow_le_pow_right (by norm_num) (by omega)
      have h19 : (2 : Nat) ^ 19 = 524288 := by norm_num
      have hmono : (2 : Nat) ^ (b - 32).toNat ≤ 2 ^ b.toNat := Nat.pow_le_pow_right (by norm_num) (by omega)
      rw [hshl, toUint32_small (by omega) (by omega)]
      omega

/-- The JS and with any mask whose pattern is below 2^31 is non-negative
    and bounded by the mask's pattern. -/
theorem jsAnd_bounds (x m : Int) (hm : toUint32 m < 2147483648) :
    0 ≤ jsAnd x m ∧ jsAnd x m ≤ ((toUint32 m : Nat) : Int) := by
  unfold jsAnd
  have hle : toUint32 x &&& toUint32 m ≤ toUint32 m := Nat.and_le_right
  rw [int32OfPat_small (by omega)]
  exact ⟨by positivity, by exact_mod_cast hle⟩

/-- Whatever the packed input, the extracted field value of a declared
    width 1 ≤ b ≤ 51 lies in [0, 2^b - 1]. -/
theorem decode_raw_range (p o : Int) (b : Int) (h1 : 1 ≤ b) (h2 : b ≤ 51) :
    0 ≤ jsAnd (jsShr p o) (jsShl 1 b - 1) ∧
    jsAnd (jsShr p o) (jsShl 1 b - 1) ≤ 2 ^ b.toNat - 1 := by
  obtain ⟨hle, hlt⟩ := mask_pattern_bound b h1 h2
  obtain ⟨h3, h4⟩ := jsAnd_bounds (jsShr p o) _ hlt
  exact ⟨h3, le_trans h4 hle⟩

/-- A Number field that passes per-field validation has a declared width
    in [1, 51]. -/
theorem validateField_num_bounds {k : String} {nb : Option Int}
    (hok : validateField k ⟨.num, nb⟩ = Except.ok ()) :
    ∃ n, nb = some n ∧ 1 ≤ n ∧ n ≤ 51 := by
  match nb with
  | none => exact absurd hok (by simp [validateField])
  | some n =>
    simp only [validateField] at hok
    split at hok
    · exact absurd hok (by simp)
    · next h =>
      push_neg at h
      exact ⟨n, rfl, by omega, by omega⟩

/-- Per-entry specification of decodeFields at any running offset: the keys
    match the schema and each value is type-correct and in range. -/
theorem decodeFields_in_range (l : Schema)
    (hv : ∀ x ∈ l, validateField x.1 x.2 = Except.ok ()) (p : Int) :
    ∀ (o : Int) (i : Nat) (hi : i < l.length) (hi2 : i < (decodeFields l p o).length),
      ((decodeFields l p o).get ⟨i, hi2⟩).1 = (l.get ⟨i, hi⟩).1 ∧
      valueInRange (l.get ⟨i, hi⟩).2 ((decodeFields l p o).get ⟨i, hi2⟩).2 := by
  induction l with
  | nil => intro o i hi; simp at hi
  | cons x rest ih =>
    intro o i hi hi2
    obtain ⟨k, ty, nb⟩ := x
    match i with
    | 0 =>
      refine ⟨rfl, ?_⟩
      revert hi2 hi
      cases ty with
      | bool => intro hi hi2; exact ⟨_, rfl⟩
      | num =>
        intro hi hi2
        have hf := hv (k, ⟨.num, nb⟩) (by simp)
        obtain ⟨n, hnbeq, hn1, hn51⟩ := validateField_num_bounds hf
        subst hnbeq
        have heff : effBits ⟨FType.num, some n⟩ = n := rfl
        show valueInRange ⟨FType.num, some n⟩ _
        unfold valueInRange
        rw [heff]
        exact ⟨_, rfl, (decode_raw_range p o n (by omega) (by omega)).1,
          (decode_raw_range p o n (by omega) (by omega)).2⟩

    | i + 1 =>
      have hrest : ∀ y ∈ rest, validateField y.1 y.2 = Except.ok () := fun y hy =>
        hv y (by simp [hy])
      exact ih hrest (o + effBits ⟨ty, nb⟩) i (by simpa using hi)
        (by simpa [decodeFields] using hi2)

/-- C10: for every integer input p, every entry of decode p is in range for
    its field: Flag keys decode to a boolean and an UnsignedInt key of
    width b decodes to an integer in [0, 2^b - 1]. -/
theorem C10_decode_in_range (l : Schema)
    (hv : ∀ x ∈ l, validateField x.1 x.2 = Except.ok ()) (p : Int)
    (i : Nat) (hi : i < l.length) (hi2 : i < (decode l p).length) :
    ((decode l p).get ⟨i, hi2⟩).1 = (l.get ⟨i, hi⟩).1 ∧
    valueInRange (l.get ⟨i, hi⟩).2 ((decode l p).get ⟨i, hi2⟩).2 :=
  decodeFields_in_range l hv p 0 i hi hi2

/-- Witness for C10_decode_in_range at the concrete scenario schema. -/
theorem C10_witness :
    ((decode exSchema 1023).get ⟨1, by decide⟩).1 = (exSchema.get ⟨1, by decide⟩).1 ∧
    valueInRange (exSchema.get ⟨1, by decide⟩).2 ((decode exSchema 1023).get ⟨1, by decide⟩).2 :=
  C10_decode_in_range exSchema (by decide) 1023 1 (by decide) (by decide)

/-- Every field of a schema accepted by the constructor passes per-field
    validation. -/
theorem validateSchema_ok_fields (l : Schema) :
    ∀ (total t : Int), validateSchema l total = .ok t →
    ∀ x ∈ l, validateField x.1 x.2 = Except.ok () := by
  induction l with
  | nil => intro total t h x hx; simp at hx
  | cons y rest ih =>
    intro total t h x hx
    obtain ⟨k, it⟩ := y
    cases hvf : validateField k it with
    | error e =>
      simp only [validateSchema, hvf] at h
      exact absurd h (by simp)
    | ok u =>
      simp only [validateSchema, hvf] at h
      rcases List.mem_cons.mp hx with rfl | hx'
      · cases u
        exact hvf
      · exact ih _ _ h x hx'

/-- Every ToUint32 pattern fits in 32 bits. -/
theorem toUint32_lt (n : Int) : toUint32 n < 4294967296 := by
  unfold toUint32
  omega

/-- ToUint32 inverts the signed reinterpretation of a 32-bit pattern. -/
theorem toUint32_int32OfPat {u : Nat} (h : u < 4294967296) :
    toUint32 (int32OfPat u) = u := by
  unfold int32OfPat toUint32
  split <;> omega

/-- Signed reinterpretations of 32-bit patterns are 32-bit values. -/
theorem toInt32_int32OfPat {u : Nat} (h : u < 4294967296) :
    toInt32 (int32OfPat u) = int32OfPat u := by
  unfold toInt32
  rw [toUint32_int32OfPat h]

/-- The or of two 32-bit patterns fits in 32 bits. -/
theorem lor_lt_32 {x y : Nat} (hx : x < 4294967296) (hy : y < 4294967296) :
    x ||| y < 4294967296 := by
  have h32 : (4294967296 : Nat) = 2 ^ 32 := by norm_num
  rw [h32] at hx hy ⊢
  apply Nat.lt_pow_two_of_testBit
  intro i hi
  have hxi : x.testBit i = false :=
    Nat.testBit_lt_two_pow (lt_of_lt_of_le hx (Nat.pow_le_pow_right (by norm_num) hi))
  have hyi : y.testBit i = false :=
    Nat.testBit_lt_two_pow (lt_of_lt_of_le hy (Nat.pow_le_pow_right (by norm_num) hi))
  rw [Nat.testBit_or, hxi, hyi]
  rfl

/-- jsOr returns an int32 value. -/
theorem toInt32_jsOr (a b : Int) : toInt32 (jsOr a b) = jsOr a b :=
  toInt32_int32OfPat (lor_lt_32 (toUint32_lt a) (toUint32_lt b))

/-- The pattern of jsOr is the or of the operand patterns. -/
theorem toUint32_jsOr (a b : Int) : toUint32 (jsOr a b) = toUint32 a ||| toUint32 b :=
  toUint32_int32OfPat (lor_lt_32 (toUint32_lt a) (toUint32_lt b))

/-- The pattern of jsShl is the truncated product. -/
theorem toUint32_jsShl (a b : Int) :
    toUint32 (jsShl a b) = toUint32 a * 2 ^ shamt b % 4294967296 :=
  toUint32_int32OfPat (Nat.mod_lt _ (by norm_num))

/-- The pattern of jsAnd is the and of the operand patterns. -/
theorem toUint32_jsAnd (a b : Int) :
    toUint32 (jsAnd a b) = toUint32 a &&& toUint32 b :=
  toUint32_int32OfPat (lt_of_le_of_lt Nat.and_le_right (toUint32_lt b))

/-- subPat is reflexive. -/
theorem subPat_refl (x : Nat) : subPat x x := fun _ h => h

/-- subPat is transitive. -/
theorem subPat_trans {x y z : Nat} (h1 : subPat x y) (h2 : subPat y z) :
    subPat x z := fun i h => h2 i (h1 i h)

/-- Mutually contained patterns are equal. -/
theorem subPat_antisymm {x y : Nat} (h1 : subPat x y) (h2 : subPat y x) : x = y := by
  apply Nat.eq_of_testBit_eq
  intro i
  cases hx : x.testBit i with
  | true => exact (h1 i hx).symm
  | false =>
    cases hy : y.testBit i with
    | true => exact absurd (h2 i hy) (by simp [hx])
    | false => rfl

/-- The left operand is contained in an or. -/
theorem subPat_lor_left (x y : Nat) : subPat x (x ||| y) := by
  intro i h
  rw [Nat.testBit_or, h]
  rfl

/-- The right operand is contained in an or. -/
theorem subPat_lor_right (x y : Nat) : subPat y (x ||| y) := by
  intro i h
  rw [Nat.testBit_or, h]
  simp

/-- An or of two contained patterns is contained. -/
theorem subPat_lor_le {x y z : Nat} (h1 : subPat x z) (h2 : subPat y z) :
    subPat (x ||| y) z := by
  intro i h
  rw [Nat.testBit_or] at h
  have h' : x.testBit i = true ∨ y.testBit i = true := by simpa using h
  rcases h' with h' | h'
  · exact h1 i h'
  · exact h2 i h'

/-- An and is contained in its left operand. -/
theorem subPat_land_left (x y : Nat) : subPat (x &&& y) x := by
  intro i h
  rw [Nat.testBit_and] at h
  have h' : x.testBit i = true ∧ y.testBit i = true := by simpa using h
  exact h'.1

/-- A pattern contained in both operands is contained in their and. -/
theorem subPat_land_of {x y z : Nat} (h1 : subPat x y) (h2 : subPat x z) :
    subPat x (y &&& z) := by
  intro i h
  rw [Nat.testBit_and, h1 i h, h2 i h]
  rfl

/-- The zero pattern is contained in everything. -/
theorem subPat_zero (y : Nat) : subPat 0 y := by
  intro i h
  simp at h

/-- 32-bit values with equal patterns are equal. -/
theorem int32_eq_of_pat {a b : Int} (ha : toInt32 a = a) (hb : toInt32 b = b)
    (h : toUint32 a = toUint32 b) : a = b := by
  rw [← ha, ← hb]
  unfold toInt32
  rw [h]

/-- Bits of a quotient by a power of two are shifted bits. -/
theorem tb_div_pow (u s j : Nat) : (u / 2 ^ s).testBit j = u.testBit (j + s) := by
  rw [Nat.testBit_to_div_mod, Nat.testBit_to_div_mod, Nat.div_div_eq_div_mul,
    ← pow_add, Nat.add_comm s j]

/-- Bits of a truncated shifted pattern. -/
theorem tb_shl_mod (x s i : Nat) :
    (x * 2 ^ s % 4294967296).testBit i =
      (decide (i < 32) && (decide (s ≤ i) && x.testBit (i - s))) := by
  have h32 : (4294967296 : Nat) = 2 ^ 32 := by norm_num
  rw [h32, Nat.testBit_mod_two_pow, ← Nat.shiftLeft_eq, Nat.testBit_shiftLeft]

/-- Bits of a masked pattern. -/
theorem tb_land_mask (x w j : Nat) :
    (x &&& (2 ^ w - 1)).testBit j = (x.testBit j && decide (j < w)) := by
  rw [Nat.testBit_and, Nat.testBit_two_pow_sub_one]

/-- Every shift count is below 32. -/
theorem shamt_lt (n : Int) : shamt n < 32 := by
  unfold shamt
  omega

/-- A value below 2^w contributes, after shifting and 32-bit truncation,
    only bits inside the window of its field. -/
theorem contrib_sub_window {v w s : Nat} (hv : v < 2 ^ w) :
    subPat (v * 2 ^ s % 4294967296) ((2 ^ w - 1) * 2 ^ s % 4294967296) := by
  intro i h
  rw [tb_shl_mod] at h ⊢
  have h' : i < 32 ∧ s ≤ i ∧ v.testBit (i - s) = true := by simpa using h
  obtain ⟨hi32, hsle, htb⟩ := h'
  have hiw : i - s < w := by
    by_contra hge
    push_neg at hge
    rw [Nat.testBit_lt_two_pow
      (lt_of_lt_of_le hv (Nat.pow_le_pow_right (by norm_num) hge))] at htb
    exact absurd htb (by simp)
  have hmb : (2 ^ w - 1).testBit (i - s) = true := by
    rw [Nat.testBit_two_pow_sub_one]
    simpa using hiw
  simp [hi32, hsle, hmb]

/-- The pattern of the sign-propagating right shift of a 32-bit pattern u:
    the low 32 - s bits are the shifted bits of u, and anything above is a
    multiple of 2^(32 - s) (the sign fill). -/
theorem shr_pattern_aux (u : Nat) (hu : u < 4294967296) (s : Nat) (hs : s < 32) :
    ∃ junk : Nat, u / 2 ^ s < 2 ^ (32 - s) ∧
      toUint32 ((int32OfPat u).fdiv ((2 : Int) ^ s)) =
        u / 2 ^ s + junk * 2 ^ (32 - s) := by
  have h32 : (4294967296 : Nat) = 2 ^ 32 := by norm_num
  have hsplit : 2 ^ (32 - s) * 2 ^ s = 4294967296 := by
    rw [← pow_add, h32]
    congr 1
    omega
  have hdivlt : u / 2 ^ s < 2 ^ (32 - s) :=
    (Nat.div_lt_iff_lt_mul (Nat.two_pow_pos _)).mpr (by rw [hsplit]; exact hu)
  have hB32 : 2 ^ (32 - s) ≤ 4294967296 := by
    rw [h32]
    exact Nat.pow_le_pow_right (by norm_num) (by omega)
  have hc_s : ((2 ^ s : Nat) : Int) = (2 : Int) ^ s := by
    push_cast
    ring
  have hdiv : ((u : Nat) : Int) / (2 : Int) ^ s = ((u / 2 ^ s : Nat) : Int) := by
    rw [← hc_s, Int.ofNat_ediv]
  rw [Int.fdiv_eq_ediv _ (by positivity)]
  unfold int32OfPat
  split
  case isTrue hlt =>
    refine ⟨0, hdivlt, ?_⟩
    rw [hdiv]
    unfold toUint32
    have hA32 : u / 2 ^ s < 4294967296 := lt_of_lt_of_le hdivlt hB32
    have hmodid : ((u / 2 ^ s : Nat) : Int) % 4294967296 = ((u / 2 ^ s : Nat) : Int) :=
      Int.emod_eq_of_lt (by positivity) (by exact_mod_cast hA32)
    rw [hmodid, Int.toNat_ofNat]
    omega
  case isFalse hge =>
    refine ⟨2 ^ s - 1, hdivlt, ?_⟩
    have hcprod : (2 : Int) ^ (32 - s) * 2 ^ s = 4294967296 := by
      exact_mod_cast congrArg (fun n : Nat => (n : Int)) hsplit
    have hstep : ((u : Nat) : Int) - 4294967296 =
        (u : Int) + -((2 : Int) ^ (32 - s)) * 2 ^ s := by
      rw [neg_mul, hcprod]
      ring
    rw [hstep, Int.add_mul_ediv_right _ _ (by positivity : ((2 : Int) ^ s) ≠ 0), hdiv]
    have hprodN : (2 ^ s - 1) * 2 ^ (32 - s) = 4294967296 - 2 ^ (32 - s) := by
      have h1 : (1 : Nat) ≤ 2 ^ s := Nat.one_le_two_pow
      calc (2 ^ s - 1) * 2 ^ (32 - s)
          = 2 ^ s * 2 ^ (32 - s) - 2 ^ (32 - s) := by rw [Nat.sub_mul, one_mul]
        _ = 4294967296 - 2 ^ (32 - s) := by rw [Nat.mul_comm, hsplit]
    rw [hprodN]
    have hc_b : ((2 ^ (32 - s) : Nat) : Int) = (2 : Int) ^ (32 - s) := by
      push_cast
      ring
    unfold toUint32
    rw [← hc_b]
    generalize hA : u / 2 ^ s = A at hdivlt ⊢
    generalize hB : (2 : Nat) ^ (32 - s) = B at hdivlt hB32 ⊢
    omega

/-- shr_pattern_aux read back through jsShr, which coerces its operand via
    ToInt32 before shifting. -/
theorem shr_pattern (P offset : Int) :
    ∃ junk : Nat, toUint32 P / 2 ^ shamt offset < 2 ^ (32 - shamt offset) ∧
      toUint32 (jsShr P offset) =
        toUint32 P / 2 ^ shamt offset + junk * 2 ^ (32 - shamt offset) :=
  shr_pattern_aux (toUint32 P) (toUint32_lt P) (shamt offset) (shamt_lt offset)

/-- Below position 32 - s, the bits of the right-shift pattern are the bits
    of the operand's pattern shifted down by s. -/
theorem shr_testBit (P offset : Int) {j : Nat}
    (hj : j < 32 - shamt offset) :
    (toUint32 (jsShr P offset)).testBit j = (toUint32 P).testBit (j + shamt offset) := by
  obtain ⟨junk, hdivlt, heq⟩ := shr_pattern P offset
  rw [heq, ← lor_two_pow_mul_add _ junk hdivlt, Nat.testBit_or]
  have hjunk : (junk * 2 ^ (32 - shamt offset)).testBit j = false := by
    rw [← Nat.shiftLeft_eq, Nat.testBit_shiftLeft]
    simp [Nat.not_le.mpr hj]
  rw [hjunk, Bool.or_false, tb_div_pow]

/-- Decoding a field of effective width w from P and shifting it back to
    its offset reproduces exactly the bits of P inside the field's (wrapped)
    window: sign-extension bits introduced by the arithmetic right shift sit
    at or above position 32 - s in the raw value and are truncated away when
    the re-encode shifts them past bit 31. -/
theorem recontrib_eq_window (P offset : Int) {w : Nat} (hw : w ≤ 30) :
    toUint32 (jsShl (jsAnd (jsShr P offset) ((2 : Int) ^ w - 1)) offset) =
      toUint32 P &&& (2 ^ w - 1) * 2 ^ shamt offset % 4294967296 := by
  have hs32 : shamt offset < 32 := shamt_lt offset
  have h1w : (1 : Nat) ≤ 2 ^ w := Nat.one_le_two_pow
  have hble : (2 : Nat) ^ w ≤ 2 ^ 30 := Nat.pow_le_pow_right (by norm_num) hw
  have h30 : (2 : Nat) ^ 30 = 1073741824 := by norm_num
  have hmaskc : ((2 ^ w - 1 : Nat) : Int) = (2 : Int) ^ w - 1 := by
    rw [Nat.cast_sub h1w]
    push_cast
    ring
  have humask : toUint32 ((2 : Int) ^ w - 1) = 2 ^ w - 1 := by
    rw [← hmaskc]
    unfold toUint32
    rw [Int.emod_eq_of_lt (by positivity)
      (by exact_mod_cast (by omega : (2 ^ w - 1 : Nat) < 4294967296))]
    exact Int.toNat_ofNat _
  have hrawlt : toUint32 (jsShr P offset) &&& (2 ^ w - 1) < 2 ^ w :=
    lt_of_le_of_lt Nat.and_le_right (by omega)
  have hraweq : jsAnd (jsShr P offset) ((2 : Int) ^ w - 1) =
      ((toUint32 (jsShr P offset) &&& (2 ^ w - 1) : Nat) : Int) := by
    unfold jsAnd
    rw [humask]
    exact int32OfPat_small (by omega)
  rw [hraweq, toUint32_jsShl]
  have hunat : toUint32 ((toUint32 (jsShr P offset) &&& (2 ^ w - 1) : Nat) : Int) =
      toUint32 (jsShr P offset) &&& (2 ^ w - 1) := by
    unfold toUint32
    rw [Int.emod_eq_of_lt (by positivity)
      (by exact_mod_cast (by omega : (toUint32 (jsShr P offset) &&& (2 ^ w - 1)) < 4294967296))]
    exact Int.toNat_ofNat _
  rw [hunat]
  apply Nat.eq_of_testBit_eq
  intro i
  rw [tb_shl_mod, tb_land_mask, Nat.testBit_and, tb_shl_mod, Nat.testBit_two_pow_sub_one]
  rcases lt_or_ge i 32 with hi32 | hi32
  · rcases le_or_lt (shamt offset) i with hsle | hsgt
    · have hj : i - shamt offset < 32 - shamt offset := by omega
      rw [shr_testBit P offset hj]
      have hid : i - shamt offset + shamt offset = i := by omega
      rw [hid]
      by_cases hw' : i - shamt offset < w <;>
        simp [hi32, hsle, hw', Bool.and_comm, Bool.and_left_comm]
    · have hns : ¬ (shamt offset ≤ i) := by omega
      simp [hns]
  · have hn32 : ¬ (i < 32) := by omega
    simp [hn32]

/-- On success, the encode loop returns an int32 value whose pattern
    contains the pattern of the incoming accumulator. -/
theorem encodeFields_out (l : Schema) :
    ∀ (data : String → Option JSValue) (acc offset P : Int),
    toInt32 acc = acc →
    encodeFields l data acc offset = .ok P →
    toInt32 P = P ∧ subPat (toUint32 acc) (toUint32 P) := by
  induction l with
  | nil =>
    intro data acc offset P hacc henc
    obtain rfl : acc = P := by simpa [encodeFields] using henc
    exact ⟨hacc, subPat_refl _⟩
  | cons x rest ih =>
    intro data acc offset P hacc henc
    obtain ⟨key, ty, nb⟩ := x
    cases hd : data key with
    | none =>
      simp only [encodeFields, hd] at henc
      exact absurd henc (by simp)
    | some val =>
      cases val with
      | bool b =>
        cases ty with
        | num =>
          simp only [encodeFields, hd] at henc
          exact absurd henc (by simp)
        | bool =>
          simp only [encodeFields, hd] at henc
          obtain ⟨hP, hsub⟩ := ih data _ _ P (toInt32_jsOr _ _) henc
          refine ⟨hP, subPat_trans ?_ hsub⟩
          rw [toUint32_jsOr]
          exact subPat_lor_left _ _
      | num vn =>
        cases ty with
        | bool =>
          simp only [encodeFields, hd] at henc
          exact absurd henc (by simp)
        | num =>
          simp only [encodeFields, hd] at henc
          split at henc
          · exact absurd henc (by simp)
          · obtain ⟨hP, hsub⟩ := ih data _ _ P (toInt32_jsOr _ _) henc
            refine ⟨hP, subPat_trans ?_ hsub⟩
            rw [toUint32_jsOr]
            exact subPat_lor_left _ _

/-- For an accepted Number width b other than 31, the shift count is
    b mod 32, it is at most 30, and 1 << b evaluates to that power of two. -/
theorem width_facts {b : Int} (h1 : 1 ≤ b) (h51 : b ≤ 51) (hb31 : b ≠ 31) :
    ∃ w : Nat, w ≤ 30 ∧ shamt b = w ∧ jsShl 1 b = 2 ^ w := by
  rcases le_or_lt b 30 with h | h
  · have hsh : shamt b = b.toNat := shamt_small (by omega) (by omega)
    exact ⟨b.toNat, by omega, hsh, jsShl_one (by omega) hsh⟩
  · have h32 : 32 ≤ b := by omega
    have hsh : shamt b = (b - 32).toNat := by
      unfold shamt
      congr 1
      omega
    exact ⟨(b - 32).toNat, by omega, hsh, jsShl_one (by omega) hsh⟩

/-- One step of the wrapped re-encode argument: the decoded raw value of a
    field of effective width w is in [0, 2^w), and oring its re-encoded
    contribution into the new accumulator keeps the original accumulator
    contained in the new one and the new one contained in P. -/
theorem reencode_step {acc acc2 offset P v : Int} {w : Nat}
    (hw : w ≤ 30)
    (hsub12 : subPat (toUint32 acc) (toUint32 acc2))
    (hsub2P : subPat (toUint32 acc2) (toUint32 P))
    (hv0 : 0 ≤ v) (hvlt : v < 2 ^ w)
    (hsubP : subPat (toUint32 (jsOr acc (jsShl v offset))) (toUint32 P)) :
    0 ≤ jsAnd (jsShr P offset) ((2 : Int) ^ w - 1) ∧
    jsAnd (jsShr P offset) ((2 : Int) ^ w - 1) < 2 ^ w ∧
    subPat (toUint32 (jsOr acc (jsShl v offset)))
      (toUint32 (jsOr acc2 (jsShl (jsAnd (jsShr P offset) ((2 : Int) ^ w - 1)) offset))) ∧
    subPat (toUint32 (jsOr acc2 (jsShl (jsAnd (jsShr P offset) ((2 : Int) ^ w - 1)) offset)))
      (toUint32 P) := by
  have h1w : (1 : Nat) ≤ 2 ^ w := Nat.one_le_two_pow
  have hble : (2 : Nat) ^ w ≤ 2 ^ 30 := Nat.pow_le_pow_right (by norm_num) hw
  have h30 : (2 : Nat) ^ 30 = 1073741824 := by norm_num
  have hcw : ((2 ^ w : Nat) : Int) = (2 : Int) ^ w := by
    push_cast
    ring
  have hmaskc : ((2 ^ w - 1 : Nat) : Int) = (2 : Int) ^ w - 1 := by
    rw [Nat.cast_sub h1w]
    push_cast
    ring
  have humask : toUint32 ((2 : Int) ^ w - 1) = 2 ^ w - 1 := by
    rw [← hmaskc]
    unfold toUint32
    rw [Int.emod_eq_of_lt (by positivity)
      (by exact_mod_cast (by omega : (2 ^ w - 1 : Nat) < 4294967296))]
    exact Int.toNat_ofNat _
  have hrawlt : toUint32 (jsShr P offset) &&& (2 ^ w - 1) < 2 ^ w :=
    lt_of_le_of_lt Nat.and_le_right (by omega)
  have hraweq : jsAnd (jsShr P offset) ((2 : Int) ^ w - 1) =
      ((toUint32 (jsShr P offset) &&& (2 ^ w - 1) : Nat) : Int) := by
    unfold jsAnd
    rw [humask]
    exact int32OfPat_small (by omega)
  have huv : toUint32 v = v.toNat := by
    unfold toUint32
    rw [Int.emod_eq_of_lt hv0 (by omega)]
  have hvn : v.toNat < 2 ^ w := by omega
  refine ⟨by rw [hraweq]; positivity, ?_, ?_, ?_⟩
  · rw [hraweq]
    exact_mod_cast hrawlt
  · rw [toUint32_jsOr, toUint32_jsOr, recontrib_eq_window P offset hw]
    rw [toUint32_jsOr] at hsubP
    apply subPat_lor_le
    · exact subPat_trans hsub12 (subPat_lor_left _ _)
    · refine subPat_trans ?_ (subPat_lor_right _ _)
      apply subPat_land_of
      · exact subPat_trans (subPat_lor_right _ _) hsubP
      · rw [toUint32_jsShl, huv]
        exact contrib_sub_window hvn
  · rw [toUint32_jsOr, recontrib_eq_window P offset hw]
    exact subPat_lor_le hsub2P (subPat_land_left _ _)

/-- Main wrapped re-encode lemma: for a schema with distinct keys whose
    fields pass per-field validation and whose Flag fields leave numBits
    unspecified, re-running the encode loop on the values decoded from its
    own successful output reproduces that output, at any offset and with no
    bound on the total width: each field's re-encoded contribution is
    exactly the packed pattern restricted to the field's wrapped window,
    the original contributions lie inside those windows, and the or of the
    recovered windows therefore rebuilds the packed pattern. -/
theorem encodeFields_reencode_wrapped (l : Schema) :
    ∀ (data G : String → Option JSValue) (acc acc2 offset P : Int),
    (l.map Prod.fst).Nodup →
    (∀ x ∈ l, validateField x.1 x.2 = Except.ok ()) →
    (∀ x ∈ l, x.2.type = FType.bool → x.2.numBits = none) →
    toInt32 acc2 = acc2 →
    toInt32 P = P →
    subPat (toUint32 acc) (toUint32 acc2) →
    subPat (toUint32 acc2) (toUint32 P) →
    encodeFields l data acc offset = .ok P →
    (∀ k, k ∈ l.map Prod.fst → G k = lookupKey (decodeFields l P offset) k) →
    encodeFields l G acc2 offset = .ok P := by
  induction l with
  | nil =>
    intro data G acc acc2 offset P hnd hval hclean hacc2 hP hsub12 hsub2P henc hG
    have hap : acc = P := by simpa [encodeFields] using henc
    have hsub12' : subPat (toUint32 P) (toUint32 acc2) := by
      rw [← hap]
      exact hsub12
    have hpat : toUint32 acc2 = toUint32 P := subPat_antisymm hsub2P hsub12'
    have h2 : acc2 = P := int32_eq_of_pat hacc2 hP hpat
    calc encodeFields [] G acc2 offset = Except.ok acc2 := rfl
    _ = Except.ok P := by rw [h2]
  | cons x rest ih =>
    intro data G acc acc2 offset P hnd hval hclean hacc2 hP hsub12 hsub2P henc hG
    obtain ⟨key, ty, nb⟩ := x
    have hnd' : key ∉ rest.map Prod.fst ∧ (rest.map Prod.fst).Nodup := by simpa using hnd
    have hvalrest : ∀ y ∈ rest, validateField y.1 y.2 = Except.ok () := fun y hy =>
      hval y (by simp [hy])
    have hcleanrest : ∀ y ∈ rest, y.2.type = FType.bool → y.2.numBits = none := fun y hy =>
      hclean y (by simp [hy])
    cases hd : data key with
    | none =>
      simp only [encodeFields, hd] at henc
      exact absurd henc (by simp)
    | some val =>
      cases val with
      | bool b =>
        cases ty with
        | num =>
          simp only [encodeFields, hd] at henc
          exact absurd henc (by simp)
        | bool =>
          have hnb : nb = none := hclean (key, ⟨FType.bool, nb⟩) (by simp) rfl
          subst hnb
          simp only [encodeFields, hd, effBits] at henc
          have hv0 : (0 : Int) ≤ if b then 1 else 0 := by cases b <;> simp
          have hvlt : (if b then (1 : Int) else 0) < 2 ^ (1 : Nat) := by
            cases b <;> norm_num
          have hm1 : jsShl 1 (1 : Int) = 2 ^ (1 : Nat) := jsShl_one (by norm_num) (by decide)
          have hsubP : subPat
              (toUint32 (jsOr acc (jsShl (if b then 1 else 0) offset))) (toUint32 P) :=
            (encodeFields_out rest data _ _ P (toInt32_jsOr _ _) henc).2
          obtain ⟨hraw0, hrawlt, hsub12', hsub2P'⟩ :=
            reencode_step (by norm_num : (1:Nat) ≤ 30) hsub12 hsub2P hv0 hvlt hsubP
          have hdec : decodeFields ((key, (⟨FType.bool, none⟩ : SchemaItem)) :: rest) P offset =
              (key, JSValue.bool
                (decide (jsAnd (jsShr P offset) ((2 : Int) ^ (1 : Nat) - 1) ≠ 0))) ::
              decodeFields rest P (offset + 1) := by
            simp only [decodeFields, effBits, hm1]
          have hGk : G key = some (JSValue.bool
              (decide (jsAnd (jsShr P offset) ((2 : Int) ^ (1 : Nat) - 1) ≠ 0))) := by
            rw [hG key (by simp), hdec]
            simp [lookupKey]
          have hG' : ∀ k, k ∈ rest.map Prod.fst →
              G k = lookupKey (decodeFields rest P (offset + 1)) k := by
            intro k hk
            rw [hG k (by simp [hk]), hdec]
            have hkne : k ≠ key := fun hkey => hnd'.1 (hkey ▸ hk)
            simp [lookupKey, hkne]
          simp only [encodeFields, hGk, effBits]
          generalize hrawv : jsAnd (jsShr P offset) ((2 : Int) ^ (1 : Nat) - 1) = rawv
            at hraw0 hrawlt hsub12' hsub2P' ⊢
          have hvr : (if (decide (rawv ≠ 0) : Bool) then (1 : Int) else 0) = rawv := by
            by_cases h0 : rawv = 0
            · simp [h0]
            · have hpow1 : (2 : Int) ^ (1 : Nat) = 2 := by norm_num
              have h1 : rawv = 1 := by omega
              simp [h0, h1]
          rw [hvr]
          exact ih data G _ _ (offset + 1) P hnd'.2 hvalrest hcleanrest
            (toInt32_jsOr _ _) hP hsub12' hsub2P' henc hG'
      | num vn =>
        cases ty with
        | bool =>
          simp only [encodeFields, hd] at henc
          exact absurd henc (by simp)
        | num =>
          obtain ⟨bn, hnbeq, hb1, hb51⟩ :=
            validateField_num_bounds (hval (key, ⟨FType.num, nb⟩) (by simp))
          subst hnbeq
          simp only [encodeFields, hd, effBits] at henc
          split at henc
          · exact absurd henc (by simp)
          · next hcond =>
            push_neg at hcond
            obtain ⟨hlt', hn0⟩ := hcond
            have hbn31 : bn ≠ 31 := by
              intro hb
              rw [hb] at hlt'
              have : jsShl 1 31 = -2147483648 := by decide
              rw [this] at hlt'
              omega
            obtain ⟨w, hw30, hsh, hmask⟩ := width_facts hb1 hb51 hbn31
            rw [hmask] at hlt'
            have hsubP : subPat
                (toUint32 (jsOr acc (jsShl vn offset))) (toUint32 P) :=
              (encodeFields_out rest data _ _ P (toInt32_jsOr _ _) henc).2
            obtain ⟨hraw0, hrawlt, hsub12', hsub2P'⟩ :=
              reencode_step hw30 hsub12 hsub2P hn0 hlt' hsubP
            have hdec : decodeFields
                ((key, (⟨FType.num, some bn⟩ : SchemaItem)) :: rest) P offset =
                (key, JSValue.num (jsAnd (jsShr P offset) ((2 : Int) ^ w - 1))) ::
                decodeFields rest P (offset + bn) := by
              simp only [decodeFields, effBits, hmask]
            have hGk : G key = some (JSValue.num
                (jsAnd (jsShr P offset) ((2 : Int) ^ w - 1))) := by
              rw [hG key (by simp), hdec]
              simp [lookupKey]
            have hG' : ∀ k, k ∈ rest.map Prod.fst →
                G k = lookupKey (decodeFields rest P (offset + bn)) k := by
              intro k hk
              rw [hG k (by simp [hk]), hdec]
              have hkne : k ≠ key := fun hkey => hnd'.1 (hkey ▸ hk)
              simp [lookupKey, hkne]
            simp only [encodeFields, hGk, effBits, hmask]
            rw [if_neg (by push_neg; exact ⟨hrawlt, hraw0⟩)]
            exact ih data G _ _ (offset + bn) P hnd'.2 hvalrest hcleanrest
              (toInt32_jsOr _ _) hP hsub12' hsub2P' henc hG'

/-- C9 amended: for every schema accepted at construction whose keys are
    distinct and whose Flag fields leave numBits unspecified, and for every
    packed value P produced by encode, patch of P with empty updates
    returns P itself — with no restriction on the total width, so wrapped
    shift counts, overlapping windows and negative packed values are all
    covered.  (The unamended claim, over all of decode's input domain, is
    refuted by C9_counterexample.) -/
theorem C9_amended (l : Schema) (t : Int) (hv : construct l = .ok t)
    (hnd : (l.map Prod.fst).Nodup)
    (hclean : ∀ x ∈ l, x.2.type = FType.bool → x.2.numBits = none)
    (data : String → Option JSValue) (P : Int)
    (he : encode l data = .ok P) :
    manipulate l P (fun _ => none) = .ok P := by
  have hfields : ∀ x ∈ l, validateField x.1 x.2 = Except.ok () :=
    validateSchema_ok_fields l 0 t hv
  have hP : toInt32 P = P ∧ subPat (toUint32 (0 : Int)) (toUint32 P) :=
    encodeFields_out l data 0 0 P (by decide) he
  have hz : toUint32 (0 : Int) = 0 := by decide
  exact encodeFields_reencode_wrapped l data _ 0 0 0 P hnd hfields hclean
    (by decide) hP.1 (subPat_refl _) (by rw [hz]; exact subPat_zero _) he
    (fun k _ => rfl)

/-- Witness for C9_amended: the 40-bit wideSchema, where encode wraps bits
    modulo 2^32 (see C1_code_bug), still satisfies the amended identity. -/
theorem C9_amended_witness :
    construct wideSchema = .ok 40 ∧ encode wideSchema wideData = .ok 0 ∧
    manipulate wideSchema 0 (fun _ => none) = .ok 0 :=
  ⟨by decide, by decide,
    C9_amended wideSchema 40 (by decide) (by decide) (by decide)
      wideData 0 (by decide)⟩

end Bitfield
